import Mathlib

/-!
Verification of `memmem` from `spritepal/tools/windows_compat.c`.

The C function:

  void *memmem(const void *haystack, size_t haystack_len,
               const void *needle, size_t needle_len)
  {
      const char *h = haystack;
      const char *n = needle;
      size_t i;
      if (needle_len == 0)
          return (void *)haystack;
      if (haystack_len < needle_len)
          return NULL;
      for (i = 0; i <= haystack_len - needle_len; i++) {
          if (memcmp(h + i, n, needle_len) == 0)
              return (void *)(h + i);
      }
      return NULL;
  }

We embed it at two levels:
* a buffer-level model (`memmem`) on byte lists, returning the matching
  offset as `Option Nat` (`none` = the NULL "not found" sentinel);
* a pointer/memory-level model (`memmemM`) on an explicit byte memory
  `Nat → Nat`, with pointers as addresses and `0` playing the role of NULL,
  threading the memory state through every read so that the absence of
  writes is a provable statement.

Instrumented variants count loop iterations (`memmemCnt`) and check every
byte access for being in bounds (`memmemChk`).
-/

/-- `memcmpEq h n i j len` embeds `memcmp(h + i, n + j, len) == 0`:
byte-by-byte comparison of `len` bytes of `h` starting at index `i`
against `len` bytes of `n` starting at index `j`, stopping at the first
mismatch exactly as `memcmp` does. -/
def memcmpEq (h n : List Nat) (i j : Nat) : Nat → Bool
  | 0 => true
  | len + 1 => (h.getD i 0 == n.getD j 0) && memcmpEq h n (i + 1) (j + 1) len

/-- The scan loop `for (i = 0; i <= haystack_len - needle_len; i++)`:
`k` is the number of remaining candidate positions (`haystack_len -
needle_len + 1` at entry).  Returns the first offset whose comparison
succeeds, `none` otherwise. -/
def searchFrom (h n : List Nat) (i : Nat) : Nat → Option Nat
  | 0 => none
  | k + 1 =>
    if memcmpEq h n i 0 n.length then some i
    else searchFrom h n (i + 1) k

/-- Buffer-level embedding of `memmem`: the haystack and needle are byte
lists (the lengths are the list lengths), the result is the matching
offset into the haystack, `none` standing for the NULL sentinel. -/
def memmem (h n : List Nat) : Option Nat :=
  if n.length = 0 then some 0
  else if h.length < n.length then none
  else searchFrom h n 0 (h.length - n.length + 1)

/-- The needle matches the haystack at offset `i`: the `needle_len` bytes
of the haystack starting at `i` exist and are byte-for-byte equal to the
needle. -/
def matchAt (h n : List Nat) (i : Nat) : Prop :=
  i + n.length ≤ h.length ∧ ∀ j < n.length, h.getD (i + j) 0 = n.getD j 0

instance (h n : List Nat) (i : Nat) : Decidable (matchAt h n i) :=
  inferInstanceAs (Decidable (_ ∧ _))

/-! ### Elementwise characterisation of `memcmpEq` -/

theorem memcmpEq_true_iff (h n : List Nat) :
    ∀ len i j, memcmpEq h n i j len = true ↔
      ∀ t < len, h.getD (i + t) 0 = n.getD (j + t) 0 := by
  intro len
  induction len with
  | zero => intro i j; simp [memcmpEq]
  | succ len ih =>
    intro i j
    simp only [memcmpEq, Bool.and_eq_true, beq_iff_eq, ih]
    constructor
    · rintro ⟨h0, hrest⟩ t ht
      cases t with
      | zero => simpa using h0
      | succ t =>
        have := hrest t (by omega)
        have e1 : i + 1 + t = i + (t + 1) := by omega
        have e2 : j + 1 + t = j + (t + 1) := by omega
        rwa [e1, e2] at this
    · intro hall
      refine ⟨by simpa using hall 0 (by omega), fun t ht => ?_⟩
      have := hall (t + 1) (by omega)
      have e1 : i + (t + 1) = i + 1 + t := by omega
      have e2 : j + (t + 1) = j + 1 + t := by omega
      rwa [e1, e2] at this

/-- Within the loop's range a successful comparison is exactly a match. -/
theorem memcmpEq_iff_matchAt (h n : List Nat) (i : Nat)
    (hb : i + n.length ≤ h.length) :
    memcmpEq h n i 0 n.length = true ↔ matchAt h n i := by
  rw [memcmpEq_true_iff]
  unfold matchAt
  constructor
  · intro hall
    exact ⟨hb, fun j hj => by simpa using hall j hj⟩
  · rintro ⟨_, hall⟩ t ht
    simpa using hall t ht

/-- A match at offset `i` forces `i + needle_len ≤ haystack_len`. -/
theorem matchAt_le (h n : List Nat) (i : Nat) (hm : matchAt h n i) :
    i + n.length ≤ h.length := hm.1

/-! ### Characterisation of the scan loop -/

theorem searchFrom_eq_none_iff (h n : List Nat) :
    ∀ k i, searchFrom h n i k = none ↔
      ∀ j, i ≤ j → j < i + k → memcmpEq h n j 0 n.length = false := by
  intro k
  induction k with
  | zero => intro i; simp [searchFrom]; omega
  | succ k ih =>
    intro i
    simp only [searchFrom]
    by_cases hc : memcmpEq h n i 0 n.length = true
    · simp only [hc, if_true]
      constructor
      · intro hfalse; cases hfalse
      · intro hall
        have := hall i (le_refl i) (by omega)
        rw [hc] at this; cases this
    · have hc' : memcmpEq h n i 0 n.length = false := by
        cases hmc : memcmpEq h n i 0 n.length
        · rfl
        · exact absurd hmc hc
      simp only [hc', if_false, Bool.false_eq_true, ih]
      constructor
      · intro hall j hij hjk
        rcases Nat.eq_or_lt_of_le hij with rfl | hlt
        · exact hc'
        · exact hall j hlt (by omega)
      · intro hall j hij hjk
        exact hall j (by omega) (by omega)

theorem searchFrom_eq_some_iff (h n : List Nat) :
    ∀ k i j, searchFrom h n i k = some j ↔
      i ≤ j ∧ j < i + k ∧ memcmpEq h n j 0 n.length = true ∧
        ∀ m, i ≤ m → m < j → memcmpEq h n m 0 n.length = false := by
  intro k
  induction k with
  | zero => intro i j; simp [searchFrom]; omega
  | succ k ih =>
    intro i j
    simp only [searchFrom]
    by_cases hc : memcmpEq h n i 0 n.length = true
    · simp only [hc, if_true]
      constructor
      · rintro h'
        cases h'
        exact ⟨le_refl i, by omega, hc, fun m h1 h2 => by omega⟩
      · rintro ⟨hij, _, hcj, hmin⟩
        rcases Nat.eq_or_lt_of_le hij with rfl | hlt
        · rfl
        · have := hmin i (le_refl i) hlt
          rw [hc] at this; cases this
    · have hc' : memcmpEq h n i 0 n.length = false := by
        cases hmc : memcmpEq h n i 0 n.length
        · rfl
        · exact absurd hmc hc
      simp only [hc', if_false, Bool.false_eq_true, ih]
      constructor
      · rintro ⟨hij, hjk, hcj, hmin⟩
        have hij' : i ≤ j := by omega
        refine ⟨hij', by omega, hcj, fun m h1 h2 => ?_⟩
        rcases Nat.eq_or_lt_of_le h1 with rfl | hlt
        · exact hc'
        · exact hmin m hlt h2
      · rintro ⟨hij, hjk, hcj, hmin⟩
        have hji : i ≠ j := by
          rintro rfl
          rw [hcj] at hc'; cases hc'
        refine ⟨by omega, by omega, hcj, fun m h1 h2 => hmin m (by omega) h2⟩

/-! ### Characterisation of `memmem` -/

/-- For a non-empty needle, `memmem` returns `some j` exactly when `j` is
a match and no earlier offset matches. -/
theorem memmem_eq_some_iff (h n : List Nat) (hn : n ≠ []) (j : Nat) :
    memmem h n = some j ↔ matchAt h n j ∧ ∀ m < j, ¬ matchAt h n m := by
  have hn0 : n.length ≠ 0 := fun hc => hn (List.eq_nil_of_length_eq_zero hc)
  unfold memmem
  simp only [hn0, if_false]
  by_cases hlen : h.length < n.length
  · simp only [hlen, if_true]
    constructor
    · intro hc; cases hc
    · rintro ⟨hm, _⟩
      have := matchAt_le h n j hm
      omega
  · simp only [hlen, if_false, searchFrom_eq_some_iff]
    have hle : n.length ≤ h.length := by omega
    constructor
    · rintro ⟨_, hjk, hcj, hmin⟩
      have hjb : j + n.length ≤ h.length := by omega
      refine ⟨(memcmpEq_iff_matchAt h n j hjb).1 hcj, fun m hm hmat => ?_⟩
      have hmb : m + n.length ≤ h.length := matchAt_le h n m hmat
      have := hmin m (by omega) hm
      rw [(memcmpEq_iff_matchAt h n m hmb).2 hmat] at this
      cases this
    · rintro ⟨hm, hmin⟩
      have hjb := matchAt_le h n j hm
      refine ⟨by omega, by omega, (memcmpEq_iff_matchAt h n j hjb).2 hm,
        fun m h1 h2 => ?_⟩
      have hmb : m + n.length ≤ h.length := by omega
      cases hmc : memcmpEq h n m 0 n.length
      · rfl
      · exact absurd ((memcmpEq_iff_matchAt h n m hmb).1 hmc) (hmin m h2)

/-- For a non-empty needle, `memmem` returns `none` exactly when no
offset matches. -/
theorem memmem_eq_none_iff (h n : List Nat) (hn : n ≠ []) :
    memmem h n = none ↔ ∀ i, ¬ matchAt h n i := by
  have hn0 : n.length ≠ 0 := fun hc => hn (List.eq_nil_of_length_eq_zero hc)
  unfold memmem
  simp only [hn0, if_false]
  by_cases hlen : h.length < n.length
  · simp only [hlen, if_true, true_iff]
    intro i hm
    have := matchAt_le h n i hm
    omega
  · simp only [hlen, if_false, searchFrom_eq_none_iff]
    constructor
    · intro hall i hm
      have hib := matchAt_le h n i hm
      have := hall i (by omega) (by omega)
      rw [(memcmpEq_iff_matchAt h n i hib).2 hm] at this
      cases this
    · intro hall j _ hjk
      have hjb : j + n.length ≤ h.length := by omega
      cases hmc : memcmpEq h n j 0 n.length
      · rfl
      · exact absurd ((memcmpEq_iff_matchAt h n j hjb).1 hmc) (hall j)

/-! ### Iteration-counting variant (for the termination/ bound claim) -/

/-- The scan loop, additionally counting how many candidate positions are
examined (one `memcmp` call per position). -/
def searchFromCnt (h n : List Nat) (i : Nat) : Nat → Option Nat × Nat
  | 0 => (none, 0)
  | k + 1 =>
    if memcmpEq h n i 0 n.length then (some i, 1)
    else
      let r := searchFromCnt h n (i + 1) k
      (r.1, r.2 + 1)

/-- `memmem` instrumented with the number of loop iterations performed. -/
def memmemCnt (h n : List Nat) : Option Nat × Nat :=
  if n.length = 0 then (some 0, 0)
  else if h.length < n.length then (none, 0)
  else searchFromCnt h n 0 (h.length - n.length + 1)

theorem searchFromCnt_fst (h n : List Nat) :
    ∀ k i, (searchFromCnt h n i k).1 = searchFrom h n i k := by
  intro k
  induction k with
  | zero => intro i; rfl
  | succ k ih =>
    intro i
    simp only [searchFromCnt, searchFrom]
    by_cases hc : memcmpEq h n i 0 n.length = true
    · simp [hc]
    · simp only [hc, if_false]
      exact ih (i + 1)

theorem searchFromCnt_snd_le (h n : List Nat) :
    ∀ k i, (searchFromCnt h n i k).2 ≤ k := by
  intro k
  induction k with
  | zero => intro i; simp [searchFromCnt]
  | succ k ih =>
    intro i
    simp only [searchFromCnt]
    by_cases hc : memcmpEq h n i 0 n.length = true
    · simp [hc]
    · have hc' : memcmpEq h n i 0 n.length = false := by
        cases hmc : memcmpEq h n i 0 n.length
        · rfl
        · exact absurd hmc hc
      simp only [hc', Bool.false_eq_true, if_false]
      have := ih (i + 1)
      omega

/-! ### Bounds-checked variant (for the memory-safety claim)

Every byte read goes through `l[i]?`; an out-of-bounds read makes the
whole computation `none`.  Agreement with the unchecked model shows the
out-of-bounds branches are unreachable. -/

/-- `memcmp` with every byte access bounds-checked. -/
def memcmpChk (h n : List Nat) (i j : Nat) : Nat → Option Bool
  | 0 => some true
  | len + 1 =>
    match h[i]?, n[j]? with
    | some x, some y =>
      if x = y then memcmpChk h n (i + 1) (j + 1) len else some false
    | _, _ => none

/-- The scan loop with bounds-checked comparisons. -/
def searchFromChk (h n : List Nat) (i : Nat) : Nat → Option (Option Nat)
  | 0 => some none
  | k + 1 =>
    match memcmpChk h n i 0 n.length with
    | none => none
    | some true => some (some i)
    | some false => searchFromChk h n (i + 1) k

/-- `memmem` with every byte access bounds-checked: `none` would signal
an out-of-bounds access. -/
def memmemChk (h n : List Nat) : Option (Option Nat) :=
  if n.length = 0 then some (some 0)
  else if h.length < n.length then some none
  else searchFromChk h n 0 (h.length - n.length + 1)

theorem memcmpChk_eq (h n : List Nat) :
    ∀ len i j, i + len ≤ h.length → j + len ≤ n.length →
      memcmpChk h n i j len = some (memcmpEq h n i j len) := by
  intro len
  induction len with
  | zero => intro i j _ _; rfl
  | succ len ih =>
    intro i j hi hj
    have hi' : i < h.length := by omega
    have hj' : j < n.length := by omega
    have hxi : h[i]? = some h[i] := List.getElem?_eq_getElem hi'
    have hxj : n[j]? = some n[j] := List.getElem?_eq_getElem hj'
    have hdi : h.getD i 0 = h[i] := List.getD_eq_getElem h 0 hi'
    have hdj : n.getD j 0 = n[j] := List.getD_eq_getElem n 0 hj'
    simp only [memcmpChk, memcmpEq, hxi, hxj, hdi, hdj]
    by_cases hxy : h[i] = n[j]
    · simp only [hxy, if_true, beq_self_eq_true, Bool.true_and]
      exact ih (i + 1) (j + 1) (by omega) (by omega)
    · have : (h[i] == n[j]) = false := beq_eq_false_iff_ne.2 hxy
      simp [hxy, this]

theorem searchFromChk_eq (h n : List Nat) :
    ∀ k i, i + k + n.length ≤ h.length + 1 →
      searchFromChk h n i k = some (searchFrom h n i k) := by
  intro k
  induction k with
  | zero => intro i _; rfl
  | succ k ih =>
    intro i hb
    have hcmp : memcmpChk h n i 0 n.length = some (memcmpEq h n i 0 n.length) :=
      memcmpChk_eq h n n.length i 0 (by omega) (by omega)
    simp only [searchFromChk, searchFrom, hcmp]
    cases hmc : memcmpEq h n i 0 n.length
    · simp only [Bool.false_eq_true, if_false]
      exact ih (i + 1) (by omega)
    · simp

/-- The checked and unchecked models agree everywhere: no execution of
`memmem` ever reads out of bounds. -/
theorem memmemChk_eq (h n : List Nat) :
    memmemChk h n = some (memmem h n) := by
  unfold memmemChk memmem
  by_cases hn0 : n.length = 0
  · simp [hn0]
  · simp only [hn0, if_false]
    by_cases hlen : h.length < n.length
    · simp [hlen]
    · simp only [hlen, if_false]
      exact searchFromChk_eq h n (h.length - n.length + 1) 0 (by omega)

/-! ### Pointer-and-memory model

`Mem` is a byte memory indexed by addresses; pointers are addresses and
`0` plays the role of `NULL`.  Every byte read threads the memory state,
so that "`memmem` never writes" is the provable statement that the final
memory equals the initial one. -/

/-- A byte memory: address → byte. -/
def Mem : Type := Nat → Nat

/-- Reading one byte: returns the byte and the (unchanged) memory, the
shape every effectful operation of the embedding has. -/
def readB (m : Mem) (a : Nat) : Nat × Mem := (m a, m)

/-- `memcmp(a, b, len) == 0` at the memory level, threading the state
through each pair of reads. -/
def memcmpM (m : Mem) (a b : Nat) : Nat → Bool × Mem
  | 0 => (true, m)
  | len + 1 =>
    let rx := readB m a
    let ry := readB rx.2 b
    if rx.1 = ry.1 then memcmpM ry.2 (a + 1) (b + 1) len
    else (false, ry.2)

/-- The scan loop at the memory level; returns the pointer `hp + i` on a
match and `0` (NULL) when the candidates are exhausted. -/
def loopM (m : Mem) (hp np nl : Nat) (i : Nat) : Nat → Nat × Mem
  | 0 => (0, m)
  | k + 1 =>
    let rc := memcmpM m (hp + i) np nl
    if rc.1 then (hp + i, rc.2)
    else loopM rc.2 hp np nl (i + 1) k

/-- The NULL pointer, which is also the "not found" sentinel. -/
def nullPtr : Nat := 0

/-- Pointer-level embedding of `memmem`: `hp`/`np` are the haystack and
needle base addresses, `hl`/`nl` the lengths; returns the result pointer
together with the final memory. -/
def memmemM (m : Mem) (hp hl np nl : Nat) : Nat × Mem :=
  if nl = 0 then (hp, m)
  else if hl < nl then (nullPtr, m)
  else loopM m hp np nl 0 (hl - nl + 1)

theorem memcmpM_mem (a b : Nat) :
    ∀ len m, (memcmpM m a b len).2 = m := by
  intro len
  induction len generalizing a b with
  | zero => intro m; rfl
  | succ len ih =>
    intro m
    simp only [memcmpM, readB]
    by_cases hxy : m a = m b
    · simp only [hxy, if_true]
      exact ih (a + 1) (b + 1) m
    · simp [hxy]

theorem loopM_mem (hp np nl : Nat) :
    ∀ k i m, (loopM m hp np nl i k).2 = m := by
  intro k
  induction k with
  | zero => intro i m; rfl
  | succ k ih =>
    intro i m
    simp only [loopM]
    by_cases hc : (memcmpM m (hp + i) np nl).1 = true
    · simp [hc, memcmpM_mem]
    · have hc' : (memcmpM m (hp + i) np nl).1 = false := by
        cases hmc : (memcmpM m (hp + i) np nl).1
        · rfl
        · exact absurd hmc hc
      simp only [hc', Bool.false_eq_true, if_false]
      rw [ih (i + 1) (memcmpM m (hp + i) np nl).2, memcmpM_mem]

/-! ### Concrete scenarios from the specification -/

example : memmem [104, 101, 108, 108, 111, 32, 119, 111, 114, 108, 100]
    [119, 111, 114, 108, 100] = some 6 := by decide

example : memmem [97, 97, 97, 97] [97, 97] = some 0 := by decide

example : memmem [97, 98, 99] [120, 121, 122] = none := by decide

example : memmem [97, 98, 99] [] = some 0 := by decide

example : memmem [] [97] = none := by decide

example : memmem [120] [120] = some 0 := by decide

/-! ### The claims -/

/-- C1: for a non-empty needle no longer than the haystack, `memmem`
returns the first (lowest) offset at which the needle matches the
haystack; in particular, when the needle occurs at several offsets the
smallest one is returned. -/
theorem memmem_returns_leftmost (h n : List Nat) (hn : n ≠ [])
    (_hle : n.length ≤ h.length) (i : Nat) (hm : matchAt h n i) :
    ∃ j, memmem h n = some j ∧ matchAt h n j ∧ j ≤ i ∧
      ∀ k < j, ¬ matchAt h n k := by
  cases hr : memmem h n with
  | none => exact absurd hm ((memmem_eq_none_iff h n hn).1 hr i)
  | some j =>
    obtain ⟨hmj, hmin⟩ := (memmem_eq_some_iff h n hn j).1 hr
    have hji : j ≤ i := by
      by_contra hlt
      exact hmin i (by omega) hm
    exact ⟨j, rfl, hmj, hji, hmin⟩

theorem memmem_returns_leftmost_witness :
    ∃ j, memmem [1, 2, 1, 2] [1, 2] = some j ∧ matchAt [1, 2, 1, 2] [1, 2] j ∧
      j ≤ 2 ∧ ∀ k < j, ¬ matchAt [1, 2, 1, 2] [1, 2] k :=
  memmem_returns_leftmost [1, 2, 1, 2] [1, 2] (by decide) (by decide) 2 (by decide)

/-- C2: for every haystack (the empty one included) an empty needle
matches at offset 0 — the start of the haystack — and the scan loop
examines no candidate position at all. -/
theorem memmem_empty_needle (h : List Nat) :
    memmem h [] = some 0 ∧ (memmemCnt h []).2 = 0 := by
  constructor
  · simp [memmem]
  · simp [memmemCnt]

/-- C3: a needle strictly longer than the haystack is reported "not
found" (`none`), and the scan loop performs zero iterations. -/
theorem memmem_needle_too_long (h n : List Nat)
    (hlt : h.length < n.length) :
    memmem h n = none ∧ (memmemCnt h n).2 = 0 := by
  have hn0 : n.length ≠ 0 := by omega
  constructor
  · simp [memmem, hn0, hlt]
  · simp [memmemCnt, hn0, hlt]

theorem memmem_needle_too_long_witness :
    memmem [5] [5, 6] = none ∧ (memmemCnt [5] [5, 6]).2 = 0 :=
  memmem_needle_too_long [5] [5, 6] (by decide)

/-- C4: `memmem` returns the NULL sentinel (`none`) exactly when the
needle is non-empty and no offset `i ≤ haystack_len - needle_len` is a
match. -/
theorem memmem_none_iff (h n : List Nat) :
    memmem h n = none ↔
      n ≠ [] ∧ ∀ i ≤ h.length - n.length, ¬ matchAt h n i := by
  by_cases hn : n = []
  · subst hn
    simp [memmem]
  · rw [memmem_eq_none_iff h n hn]
    constructor
    · intro hall
      exact ⟨hn, fun i _ => hall i⟩
    · rintro ⟨_, hall⟩ i hm
      have := matchAt_le h n i hm
      exact hall i (by omega) hm

/-- C5: any non-sentinel result of `memmem` is a sound match: the
returned offset `i` satisfies `i + needle_len ≤ haystack_len` (hence
`i ≤ haystack_len - needle_len`) and the needle bytes coincide with the
haystack bytes starting at `i`. -/
theorem memmem_some_sound (h n : List Nat) (i : Nat)
    (hr : memmem h n = some i) :
    matchAt h n i ∧ i + n.length ≤ h.length ∧ i ≤ h.length - n.length := by
  by_cases hn : n = []
  · subst hn
    have hi : i = 0 := by
      have : (some 0 : Option Nat) = some i := by
        rw [← hr]; simp [memmem]
      simpa using this.symm
    subst hi
    exact ⟨⟨by simp, by simp⟩, by simp, by omega⟩
  · have hmj := ((memmem_eq_some_iff h n hn i).1 hr).1
    have := matchAt_le h n i hmj
    exact ⟨hmj, this, by omega⟩

theorem memmem_some_sound_witness :
    matchAt [1, 2, 3] [2, 3] 1 ∧ 1 + 2 ≤ 3 ∧ 1 ≤ 3 - 2 := by
  have := memmem_some_sound [1, 2, 3] [2, 3] 1 (by decide)
  simpa using this

/-- C6: `memmem` is deterministic — two calls on identical haystack and
needle contents return identical results. -/
theorem memmem_deterministic (h₁ n₁ h₂ n₂ : List Nat)
    (hh : h₁ = h₂) (hn : n₁ = n₂) :
    memmem h₁ n₁ = memmem h₂ n₂ := by
  subst hh; subst hn; rfl

theorem memmem_deterministic_witness :
    memmem [7, 8] [8] = memmem [7, 8] [8] :=
  memmem_deterministic [7, 8] [8] [7, 8] [8] rfl rfl

/-- C7: `memmem` never writes: in the memory-threaded model, where every
byte read passes the memory state along, the memory after the call is
exactly the memory before it, whatever the buffers and lengths are. -/
theorem memmem_no_mutation (m : Mem) (hp hl np nl : Nat) :
    (memmemM m hp hl np nl).2 = m := by
  unfold memmemM
  by_cases hnl : nl = 0
  · simp [hnl]
  · simp only [hnl, if_false]
    by_cases hlt : hl < nl
    · simp [hlt]
    · simp only [hlt, if_false]
      exact loopM_mem hp np nl (hl - nl + 1) 0 m

/-- C8: `memmem` always terminates with a result, and its scan loop
examines at most `haystack_len - needle_len + 1` candidate positions. -/
theorem memmem_terminates_bounded (h n : List Nat) :
    (memmemCnt h n).1 = memmem h n ∧
      (memmemCnt h n).2 ≤ h.length - n.length + 1 := by
  unfold memmemCnt memmem
  by_cases hn0 : n.length = 0
  · simp [hn0]
  · simp only [hn0, if_false]
    by_cases hlt : h.length < n.length
    · simp [hlt]
    · simp only [hlt, if_false]
      exact ⟨searchFromCnt_fst h n (h.length - n.length + 1) 0,
        searchFromCnt_snd_le h n (h.length - n.length + 1) 0⟩

/-- C9: every byte access of `memmem` is in bounds — the bounds-checked
model never hits its out-of-bounds branch and agrees with the unchecked
one — and the loop bound `haystack_len - needle_len` is only computed
behind the guards, where the unsigned subtraction agrees with integer
subtraction (no underflow). -/
theorem memmem_memory_safe (h n : List Nat) :
    memmemChk h n = some (memmem h n) ∧
      (n ≠ [] → ¬ h.length < n.length →
        (h.length : Int) - (n.length : Int) =
          ((h.length - n.length : Nat) : Int)) := by
  refine ⟨memmemChk_eq h n, fun _ _ => ?_⟩
  omega

theorem memmem_memory_safe_witness :
    memmemChk [1, 0, 2] [0, 2] = some (memmem [1, 0, 2] [0, 2]) ∧
      ((0 : Nat) = 0 ∨
        ((3 : Int) - (2 : Int) = ((3 - 2 : Nat) : Int))) := by
  have hmain := memmem_memory_safe [1, 0, 2] [0, 2]
  exact ⟨hmain.1, Or.inr (hmain.2 (by decide) (by decide))⟩

/-- C10: on the NULL/empty haystack representation (base address `0`,
length `0`) with an empty needle, the pointer-level `memmem` returns the
haystack pointer itself, which is the NULL "not found" sentinel — the
same value a genuine miss (here: the same call with needle length `1`)
produces, so the two outcomes are indistinguishable at the interface. -/
theorem memmem_null_haystack_empty_needle (m : Mem) (np : Nat) :
    (memmemM m 0 0 np 0).1 = nullPtr ∧ (memmemM m 0 0 np 1).1 = nullPtr := by
  exact ⟨rfl, rfl⟩
